import Mathlib

/-!
Verification of the appliance pattern generation core
(`appliance_pattern_generator.py`) of the gridlabd-digital-twin repository.

Shallow embedding conventions:
* Power samples and probabilities are modelled as exact rationals (`ℚ`);
  the Python source computes with IEEE doubles.
* Timestamps are modelled as natural numbers counting seconds from an
  epoch placed at a Monday 00:00, so that `weekday = (t / 86400) % 7`
  reproduces `datetime.weekday()` (0 = Monday) and `hour = t % 86400 / 3600`
  reproduces `datetime.hour`.
* The two third-party numeric routines are abstracted as parameters:
  `cubic` stands for the pointwise evaluation of
  `scipy.interpolate.interp1d(..., kind='cubic')` at the resampling grid,
  and `dtwPath` stands for the alignment path returned by `fastdtw`.
  Every theorem below either quantifies over these parameters or is
  evaluated on inputs whose control flow never reaches them.
* Randomness (`random.sample`, `np.random.choice`) is modelled by explicit
  oracle functions supplying the drawn values; a concrete Python run
  corresponds to a concrete oracle.
-/

/-- A recorded appliance activation template. `max_power` is the
`statistical_features['max_power']` entry of the record and
`total_duration_seconds` its `total_duration_seconds` entry. -/
structure Template where
  power_sequence : List ℚ
  max_power : ℚ
  total_duration_seconds : ℚ
deriving Repr, DecidableEq

instance : Inhabited Template := ⟨⟨[], 0, 0⟩⟩

/-- Minimum of a list of rationals, as computed by `np.array(seq).min()`
(the Python call errors on an empty array; the `[]` case is a junk value). -/
def listMin : List ℚ → ℚ
  | [] => 0
  | [x] => x
  | x :: y :: t => min x (listMin (y :: t))

/-- Maximum of a list of rationals, as computed by `np.array(seq).max()`. -/
def listMax : List ℚ → ℚ
  | [] => 0
  | [x] => x
  | x :: y :: t => max x (listMax (y :: t))

/-- Model of `normalize_pattern` (source lines 40-43): min-max normalization; when all
samples are equal it returns a constant 0.5 sequence (`np.full_like`). -/
def normalize_pattern (seq : List ℚ) : List ℚ :=
  let mn := listMin seq
  let mx := listMax seq
  if mx = mn then seq.map (fun _ => 1/2) else seq.map (fun x => (x - mn) / (mx - mn))

/-- Model of `scale_pattern` (source lines 45-46): `norm * (nominal - baseline) + baseline`. -/
def scale_pattern (norm : List ℚ) (nominal baseline : ℚ) : List ℚ :=
  norm.map (fun x => x * (nominal - baseline) + baseline)

/-- Model of `interp_pattern` (source lines 48-55).  `steps = int(duration_min * 60 /
timestep_sec)` is natural-number division here.  When `steps` equals the
input length the input is returned unchanged; otherwise the curve is
re-evaluated at `steps` points `xt` of the normalized index axis by
`scipy.interpolate.interp1d(..., kind='cubic')`, abstracted as the
pointwise evaluator `cubic pattern steps i`. -/
def interp_pattern (cubic : List ℚ → ℕ → ℕ → ℚ) (pattern : List ℚ)
    (duration_min timestep_sec : ℕ) : List ℚ :=
  let L := pattern.length
  let steps := duration_min * 60 / timestep_sec
  if steps = L then pattern
  else (List.range steps).map (fun i => cubic pattern steps i)

/-- One-point linear interpolation with boundary clamping over knot/value
pairs, the semantics of `np.interp x xp fp` for increasing `xp`
(source line 149 is its only use site). -/
def npInterp : ℚ → List (ℚ × ℚ) → ℚ
  | _, [] => 0
  | _, [(_, y1)] => y1
  | x, (x1, y1) :: (x2, y2) :: rest =>
    if x ≤ x1 then y1
    else if x ≤ x2 then y1 + (y2 - y1) * (x - x1) / (x2 - x1)
    else npInterp x ((x2, y2) :: rest)

/-- The final output-resampling step of `generate_single_activation_pattern`
(source lines 145-149): evaluate `np.interp` at
`x_output = arange(num_output_steps) * output_timestep` against
`x_native = arange(len(pattern_native)) * timestep_native`. -/
def resample_output (pattern_native : List ℚ)
    (duration_min timestep_native output_timestep : ℕ) : List ℚ :=
  let num_output_steps := duration_min * 60 / output_timestep
  let pts := (List.range pattern_native.length).map
    (fun i => (((i * timestep_native : ℕ) : ℚ), pattern_native.getD i 0))
  (List.range num_output_steps).map
    (fun j => npInterp ((j * output_timestep : ℕ) : ℚ) pts)

/-- Model of `align_dtw` (source lines 57-66), with the `fastdtw` alignment path
supplied as the explicit argument `path`: accumulate template values and
contribution counts per reference index, set zero counts to one, divide. -/
def align_dtw (path : List (ℕ × ℕ)) (template ref : List ℚ) : List ℚ :=
  let aligned := path.foldl
    (fun a p => a.set p.2 (a.getD p.2 0 + template.getD p.1 0))
    (List.replicate ref.length (0 : ℚ))
  let counts := path.foldl
    (fun c p => c.set p.2 (c.getD p.2 0 + 1))
    (List.replicate ref.length (0 : ℚ))
  List.zipWith (fun a c => a / (if c = 0 then 1 else c)) aligned counts

/-- The normalize → scale → resample pipeline applied to one template,
shared by every strategy of the source. -/
def processTemplate (cubic : List ℚ → ℕ → ℕ → ℚ) (tpl : Template)
    (nominal : ℚ) (duration_min : ℕ) (baseline : ℚ) (timestep_sec : ℕ) : List ℚ :=
  interp_pattern cubic (scale_pattern (normalize_pattern tpl.power_sequence) nominal baseline)
    duration_min timestep_sec

/-- Model of `generate_weighted_average` (source lines 69-91). -/
def generate_weighted_average (cubic : List ℚ → ℕ → ℕ → ℚ) (templates : List Template)
    (nominal : ℚ) (duration_min : ℕ) (baseline : ℚ) (timestep_sec : ℕ) : List ℚ :=
  let weights := templates.map (fun tpl =>
    (1 / (1 + |tpl.max_power - nominal| / nominal)) *
    (1 / (1 + |tpl.total_duration_seconds / 60 - (duration_min : ℚ)| / (duration_min : ℚ))))
  let processed := templates.map
    (fun tpl => processTemplate cubic tpl nominal duration_min baseline timestep_sec)
  let wsum := weights.sum
  let w_arr := weights.map (fun w => w / wsum)
  let avg0 := List.replicate (processed.headD []).length (0 : ℚ)
  let avg := (processed.zip w_arr).foldl (fun avg pw =>
      let proc := if pw.1.length ≠ avg.length
        then interp_pattern cubic pw.1 duration_min timestep_sec else pw.1
      List.zipWith (fun a p => a + p * pw.2) avg proc) avg0
  avg.map (fun v => max v 0)

/-- Stable insertion of an index into a list kept ascending by `key`,
used to model `np.argsort` over the power distances. -/
def insertByKeyAsc (key : ℕ → ℚ) (x : ℕ) : List ℕ → List ℕ
  | [] => [x]
  | y :: ys => if key y < key x then y :: insertByKeyAsc key x ys else x :: y :: ys

/-- Ascending argsort by `key` (models `np.argsort(diffs)` on line 95). -/
def sortByKeyAsc (key : ℕ → ℚ) (l : List ℕ) : List ℕ :=
  l.foldr (insertByKeyAsc key) []

/-- Model of `generate_interpolation` (source lines 93-109). -/
def generate_interpolation (cubic : List ℚ → ℕ → ℕ → ℚ) (templates : List Template)
    (nominal : ℚ) (duration_min : ℕ) (baseline : ℚ) (timestep_sec : ℕ) : List ℚ :=
  let idx := sortByKeyAsc (fun i => |(templates.getD i default).max_power - nominal|)
    (List.range templates.length)
  if templates.length = 1 then
    processTemplate cubic (templates.getD (idx.headD 0) default) nominal duration_min baseline timestep_sec
  else
    let t1 := templates.getD (idx.getD 0 0) default
    let t2 := templates.getD (idx.getD 1 0) default
    let s1 := processTemplate cubic t1 nominal duration_min baseline timestep_sec
    let s2 := processTemplate cubic t2 nominal duration_min baseline timestep_sec
    let p1 := t1.max_power
    let p2 := t2.max_power
    let alpha := if p1 = p2 then 1/2 else (nominal - p1) / (p2 - p1)
    let alphaC := min (max alpha 0) 1
    List.zipWith (fun a b => (1 - alphaC) * a + alphaC * b) s1 s2

/-- Model of `generate_scaling` (source lines 111-114): `templates[index] if index <
len(templates) else templates[0]`, then normalize → scale → resample. -/
def generate_scaling (cubic : List ℚ → ℕ → ℕ → ℚ) (templates : List Template)
    (nominal : ℚ) (duration_min : ℕ) (baseline : ℚ) (timestep_sec : ℕ) (index : ℕ) : List ℚ :=
  let tpl := if index < templates.length then templates.getD index default
    else templates.getD 0 default
  processTemplate cubic tpl nominal duration_min baseline timestep_sec

/-- The `dtw` branch of `generate_single_activation_pattern` (source lines
131-141): build the reference curve from `templates[ref_index]`, align every
processed template onto it, average pointwise, clamp at zero. -/
def dtw_average_native (cubic : List ℚ → ℕ → ℕ → ℚ)
    (dtwPath : List ℚ → List ℚ → List (ℕ × ℕ)) (templates : List Template)
    (nominal : ℚ) (duration_min : ℕ) (baseline : ℚ) (timestep_sec ref_index : ℕ) : List ℚ :=
  let ref_interp := processTemplate cubic (templates.getD ref_index default)
    nominal duration_min baseline timestep_sec
  let warped := templates.map (fun tpl =>
    let interp := processTemplate cubic tpl nominal duration_min baseline timestep_sec
    align_dtw (dtwPath interp ref_interp) interp ref_interp)
  let meanCurve := (List.range ref_interp.length).map
    (fun j => (warped.map (fun w => w.getD j 0)).sum / (warped.length : ℚ))
  meanCurve.map (fun v => max v 0)

/-- Model of `generate_single_activation_pattern` (source lines 117-150): dispatch on
the strategy string, then resample the native curve to the output timestep.
An unrecognized strategy raises `ValueError` (source line 143), modelled as
`Except.error ()`.  Note that the `scaling` branch (source line 130) calls
`generate_scaling` without forwarding `ref_index`, so the default index 0 is
used there; `ref_index` is only read by the `dtw` branch. -/
def generate_single_activation_pattern (cubic : List ℚ → ℕ → ℕ → ℚ)
    (dtwPath : List ℚ → List ℚ → List (ℕ × ℕ)) (templates : List Template)
    (nominal : ℚ) (duration_min : ℕ) (method : String) (baseline : ℚ)
    (timestep_native output_timestep ref_index : ℕ) : Except Unit (List ℚ) :=
  if method = "weighted" then
    .ok (resample_output (generate_weighted_average cubic templates nominal duration_min baseline timestep_native)
      duration_min timestep_native output_timestep)
  else if method = "interpolate" then
    .ok (resample_output (generate_interpolation cubic templates nominal duration_min baseline timestep_native)
      duration_min timestep_native output_timestep)
  else if method = "scaling" then
    .ok (resample_output (generate_scaling cubic templates nominal duration_min baseline timestep_native 0)
      duration_min timestep_native output_timestep)
  else if method = "dtw" then
    .ok (resample_output (dtw_average_native cubic dtwPath templates nominal duration_min baseline timestep_native ref_index)
      duration_min timestep_native output_timestep)
  else .error ()

/-- Day number of a timestamp (`datetime.date()` as an ordinal; the epoch is
a Monday 00:00, so days are counted from that Monday). -/
def tsDay (t : ℕ) : ℕ := t / 86400

/-- Hour of day of a timestamp (`datetime.hour`). -/
def tsHour (t : ℕ) : ℕ := t % 86400 / 3600

/-- Weekday of a timestamp, 0 = Monday (`datetime.weekday()`). -/
def tsWeekday (t : ℕ) : ℕ := tsDay t % 7

/-- Model of `is_weekend` (source lines 264-266): Saturday (5) or Sunday (6). -/
def is_weekend (t : ℕ) : Bool := 5 ≤ tsWeekday t

/-- The time-series grid (source lines 191-195 and 298-302): timestamps
`start, start + step, ...` while `current <= end`. -/
def gridTimes (start endT step : ℕ) : List ℕ :=
  if start ≤ endT then (List.range ((endT - start) / step + 1)).map (fun k => start + k * step)
  else []

/-- Overlay one activation curve at position `pos` by pointwise maximum,
dropping samples that fall past the end of the series (the
`if absolute_idx + i < len(timeseries)` guard of source lines 220-222
and 407-409). -/
def overlayActivation (series : List ℚ) (pos : ℕ) (curve : List ℚ) : List ℚ :=
  (List.range curve.length).foldl
    (fun s i => if pos + i < s.length
      then s.set (pos + i) (max (s.getD (pos + i) 0) (curve.getD i 0))
      else s)
    series

/-- Overlay the activation curve at every selected start position, in order. -/
def placeActivations (series : List ℚ) (starts : List ℕ) (curve : List ℚ) : List ℚ :=
  starts.foldl (fun s p => overlayActivation s p curve) series

/-- One selection step chain of `random.sample(range(n), k)`: repeatedly draw
an element of the remaining pool at the oracle-chosen position and remove it.
Any concrete Python draw corresponds to a concrete oracle. -/
def sampleStep (oracle : ℕ → ℕ) : ℕ → ℕ → List ℕ → List ℕ
  | _, 0, _ => []
  | step, k + 1, pool =>
    let x := pool.getD (oracle step % pool.length) 0
    x :: sampleStep oracle (step + 1) k (pool.erase x)

/-- Model of `random.sample(range(n), num)` (source line 216): `num` distinct values
from `[0, n)`; Python raises `ValueError` when `num > n`, modelled as
`Except.error ()`. -/
def randomSample (oracle : ℕ → ℕ) (n k : ℕ) : Except Unit (List ℕ) :=
  if k ≤ n then .ok (sampleStep oracle 0 k (List.range n)) else .error ()

/-- The per-day start-offset draw of `generate_timeseries_with_activations`
(source lines 209-216): `max_start_idx = len(day_indices) -
activation_timesteps`; if it is not positive the day is skipped, otherwise
`min(activations_per_day, max_start_idx)` offsets are sampled without
replacement (the sampling itself only when that count is positive). -/
def uniformDayOffsets (oracle : ℕ → ℕ) (dayLen T apd : ℕ) : Except Unit (List ℕ) :=
  if T < dayLen then
    let num := min apd (dayLen - T)
    if 0 < num then randomSample oracle (dayLen - T) num else .ok []
  else .ok []

/-- All absolute activation start indices chosen by the uniform-random-daily
placer: the day loop of source lines 198-224, with the day's draws mapped to
absolute grid indices via `day_indices[0] + start_offset`. -/
def uniformAllStarts (oracle : ℕ → ℕ → ℕ) (T start endT step apd : ℕ) :
    Except Unit (List ℕ) :=
  let grid := gridTimes start endT step
  (List.range' (tsDay start) (tsDay endT + 1 - tsDay start)).foldlM
    (fun acc d => do
      let dayIdx := (List.range grid.length).filter (fun i => tsDay (grid.getD i 0) = d)
      if dayIdx.isEmpty then pure acc
      else do
        let offs ← uniformDayOffsets (oracle d) dayIdx.length T apd
        pure (acc ++ offs.map (fun o => dayIdx.headD 0 + o)))
    ([] : List ℕ)

/-- Model of `generate_timeseries_with_activations` (source lines 152-226), on a
pre-synthesized activation curve: build the zero grid, choose the daily
starts, overlay the curve at each start by pointwise maximum. -/
def generate_timeseries_with_activations (oracle : ℕ → ℕ → ℕ)
    (activation_pattern : List ℚ) (start endT step apd : ℕ) :
    Except Unit (List (ℕ × ℚ)) := do
  let grid := gridTimes start endT step
  let starts ← uniformAllStarts oracle activation_pattern.length start endT step apd
  pure (grid.zip (placeActivations (List.replicate grid.length 0) starts activation_pattern))

/-- Schedule configuration for the probabilistic-weekly placer
(`schedule_config` in the source).  The hour ranges are given already
parsed as `(start_hour, end_hour)` pairs; the string splitting done by
`parse_hour_range` (source lines 230-238) is not modelled. -/
structure ScheduleConfig where
  activations_per_week : ℕ
  weekday : List ((ℕ × ℕ) × ℚ)
  weekend : List ((ℕ × ℕ) × ℚ)

/-- Model of `calculate_timestep_probabilities` (source lines 241-261): a 24-entry
per-hour list; each range `(s, e)` raises hours `s, ..., e-1` below 24 to at
least its probability (overlapping ranges take the maximum). -/
def calculate_timestep_probabilities (hour_probabilities : List ((ℕ × ℕ) × ℚ)) : List ℚ :=
  hour_probabilities.foldl
    (fun probs entry =>
      (List.range' entry.1.1 (entry.1.2 - entry.1.1)).foldl
        (fun ps h => if h < 24 then ps.set h (max (ps.getD h 0) entry.2) else ps)
        probs)
    (List.replicate 24 (0 : ℚ))

/-- Week key of a timestamp (source lines 318-321): the date of
`ts - timedelta(days=ts.weekday())`, i.e. the day number of the Monday
starting the timestamp's week. -/
def weekKeyOf (t : ℕ) : ℕ := tsDay t - tsWeekday t

/-- Value of `days_in_week` for one week (source lines 326-331):
`(min(week_start + 7 days, end_date).date() - week_start_date).days + 1`. -/
def weekDaysInWeek (weekKey endT : ℕ) : ℕ :=
  min (weekKey * 86400 + 7 * 86400) endT / 86400 - weekKey + 1

/-- Value of `target_activations` for one week (source line 332):
`int(activations_per_week * (days_in_week / 7.0))`, i.e. truncation,
modelled in exact arithmetic as natural-number division. -/
def weekTargetActivations (apw weekKey endT : ℕ) : ℕ :=
  apw * weekDaysInWeek weekKey endT / 7

/-- The weekday/weekend hour probability of a timestamp
(source lines 339-341). -/
def timestepProbFor (weekday_probs weekend_probs : List ℚ) (t : ℕ) : ℚ :=
  if is_weekend t then weekend_probs.getD (tsHour t) 0 else weekday_probs.getD (tsHour t) 0

/-- The rejection-sampling loop of source lines 360-378, with
`np.random.choice` modelled by the oracle (reduced modulo the number of
eligible positions).  A draw is accepted unless it lies within `T`
samples of an already-accepted position; accepted positions form a set in
the source, so a draw already present is never added twice. -/
def selectLoop (oracle : ℕ → ℕ) (tIndices : List ℕ) (T target : ℕ) :
    ℕ → ℕ → List ℕ → List ℕ
  | _, 0, selected => selected
  | attempt, fuel + 1, selected =>
    if selected.length < target then
      let absIdx := tIndices.getD (oracle attempt % tIndices.length) 0
      if selected.any (fun e => Nat.dist absIdx e < T) ∨ absIdx ∈ selected then
        selectLoop oracle tIndices T target (attempt + 1) fuel selected
      else
        selectLoop oracle tIndices T target (attempt + 1) fuel (selected ++ [absIdx])
    else selected

/-- Stable insertion of an index into a list kept descending by `key`,
modelling Python's stable `sorted(..., reverse=True)`. -/
def insertByKeyDesc (key : ℕ → ℚ) (x : ℕ) : List ℕ → List ℕ
  | [] => [x]
  | y :: ys => if key x < key y then y :: insertByKeyDesc key x ys else x :: y :: ys

/-- Descending stable sort by `key` (source lines 384-388). -/
def sortByKeyDesc (key : ℕ → ℚ) (l : List ℕ) : List ℕ :=
  l.foldr (insertByKeyDesc key) []

/-- The deterministic fallback fill of source lines 381-403: scan positions
in descending-probability order, adding any that does not overlap an
accepted position, until the target is reached. -/
def fallbackFill (tIndices : List ℕ) (order : List ℕ) (T target : ℕ)
    (selected : List ℕ) : List ℕ :=
  order.foldl
    (fun sel i =>
      if target ≤ sel.length then sel
      else if sel.any (fun e => Nat.dist (tIndices.getD i 0) e < T) ∨ tIndices.getD i 0 ∈ sel
        then sel
      else sel ++ [tIndices.getD i 0])
    selected

/-- All activation start indices accepted for one calendar week by
`generate_timeseries_with_probabilistic_schedule` (source lines 324-403):
collect the week's grid indices, keep those leaving room for a full
activation, build their probabilities, rejection-sample up to
`2 * (eligible count)` attempts, then fall back to the
highest-probability non-overlapping slots if the target was not reached.
A week with no eligible position yields no activation. -/
def weekSelectedStarts (oracle : ℕ → ℕ) (grid : List ℕ) (T : ℕ)
    (weekday_probs weekend_probs : List ℚ) (apw endT wk : ℕ) : List ℕ :=
  let weekIdx := (List.range grid.length).filter (fun i => weekKeyOf (grid.getD i 0) = wk)
  let target := weekTargetActivations apw wk endT
  let eligible := weekIdx.filter (fun i => i + T ≤ grid.length)
  if eligible.length = 0 then []
  else
    let rawProbs := eligible.map
      (fun i => timestepProbFor weekday_probs weekend_probs (grid.getD i 0))
    let probSum := rawProbs.sum
    let probs := if 0 < probSum then rawProbs.map (fun p => p / probSum)
      else List.replicate eligible.length (1 / (eligible.length : ℚ))
    let selected := selectLoop oracle eligible T target 0 (2 * eligible.length) []
    if selected.length < target then
      fallbackFill eligible
        (sortByKeyDesc (fun i => probs.getD i 0) (List.range eligible.length))
        T target selected
    else selected

/-- The start indices accepted by the probabilistic-weekly placer over the
whole window: weeks in order of first appearance in the grid
(source lines 317-324), each contributing its own accepted set. -/
def probabilisticAllStarts (oracle : ℕ → ℕ → ℕ) (T start endT step : ℕ)
    (schedule : ScheduleConfig) : List ℕ :=
  let grid := gridTimes start endT step
  let weekday_probs := calculate_timestep_probabilities schedule.weekday
  let weekend_probs := calculate_timestep_probabilities schedule.weekend
  ((grid.map weekKeyOf).eraseDups).foldl
    (fun acc wk => acc ++ weekSelectedStarts (oracle wk) grid T weekday_probs weekend_probs
      schedule.activations_per_week endT wk)
    []

/-- Model of `generate_timeseries_with_probabilistic_schedule` (source lines 269-411),
on a pre-synthesized activation curve: build the zero grid, accept start
positions week by week, overlay the curve at each accepted position by
pointwise maximum. -/
def generate_timeseries_with_probabilistic_schedule (oracle : ℕ → ℕ → ℕ)
    (activation_pattern : List ℚ) (start endT step : ℕ)
    (schedule : ScheduleConfig) : List (ℕ × ℚ) :=
  let grid := gridTimes start endT step
  grid.zip (placeActivations (List.replicate grid.length 0)
    (probabilisticAllStarts oracle activation_pattern.length start endT step schedule)
    activation_pattern)

lemma listMin_le : ∀ (l : List ℚ), ∀ x ∈ l, listMin l ≤ x := by
  intro l
  induction l with
  | nil => intro x hx; cases hx
  | cons a t ih =>
    intro x hx
    cases t with
    | nil =>
      rcases List.mem_singleton.mp hx with rfl
      simp [listMin]
    | cons b t2 =>
      rcases List.mem_cons.mp hx with h1 | h2
      · subst h1; exact min_le_left _ _
      · exact le_trans (min_le_right _ _) (ih x h2)

lemma le_listMax : ∀ (l : List ℚ), ∀ x ∈ l, x ≤ listMax l := by
  intro l
  induction l with
  | nil => intro x hx; cases hx
  | cons a t ih =>
    intro x hx
    cases t with
    | nil =>
      rcases List.mem_singleton.mp hx with rfl
      simp [listMax]
    | cons b t2 =>
      rcases List.mem_cons.mp hx with h1 | h2
      · subst h1; exact le_max_left _ _
      · exact le_trans (ih x h2) (le_max_right _ _)

lemma listMin_const : ∀ (l : List ℚ) (c : ℚ), l ≠ [] → (∀ x ∈ l, x = c) → listMin l = c := by
  intro l
  induction l with
  | nil => intro c h; exact absurd rfl h
  | cons a t ih =>
    intro c _ hall
    have ha : a = c := hall a (List.mem_cons_self a t)
    cases t with
    | nil => simpa [listMin] using ha
    | cons b t2 =>
      have ht : listMin (b :: t2) = c :=
        ih c (by simp) (fun x hx => hall x (List.mem_cons_of_mem a hx))
      simp [listMin, ha, ht]

lemma listMax_const : ∀ (l : List ℚ) (c : ℚ), l ≠ [] → (∀ x ∈ l, x = c) → listMax l = c := by
  intro l
  induction l with
  | nil => intro c h; exact absurd rfl h
  | cons a t ih =>
    intro c _ hall
    have ha : a = c := hall a (List.mem_cons_self a t)
    cases t with
    | nil => simpa [listMax] using ha
    | cons b t2 =>
      have ht : listMax (b :: t2) = c :=
        ih c (by simp) (fun x hx => hall x (List.mem_cons_of_mem a hx))
      simp [listMax, ha, ht]

/-- C8: for every non-empty sample sequence, `normalize_pattern` returns
values all lying in [0,1]; if all input samples are equal, the result is
the constant 0.5 sequence of the same length. -/
theorem normalize_bounds_and_constant (seq : List ℚ) (h : seq ≠ []) :
    (∀ y ∈ normalize_pattern seq, 0 ≤ y ∧ y ≤ 1) ∧
    ((∀ x ∈ seq, x = seq.headD 0) →
      normalize_pattern seq = List.replicate seq.length (1/2)) := by
  constructor
  · intro y hy
    unfold normalize_pattern at hy
    by_cases hc : listMax seq = listMin seq
    · simp only [hc, if_pos rfl] at hy
      rcases List.mem_map.mp hy with ⟨x, _, rfl⟩
      norm_num
    · simp only [if_neg hc] at hy
      rcases List.mem_map.mp hy with ⟨x, hx, rfl⟩
      have hmn : listMin seq ≤ x := listMin_le seq x hx
      have hmx : x ≤ listMax seq := le_listMax seq x hx
      have hlt : listMin seq < listMax seq := lt_of_le_of_ne (le_trans hmn hmx) (Ne.symm hc)
      have hd : 0 < listMax seq - listMin seq := by linarith
      constructor
      · exact div_nonneg (by linarith) (le_of_lt hd)
      · rw [div_le_one hd]; linarith
  · intro hall
    obtain ⟨a, t, rfl⟩ := List.exists_cons_of_ne_nil h
    have hh : (a :: t).headD 0 = a := rfl
    rw [hh] at hall
    have hmn : listMin (a :: t) = a := listMin_const _ a (by simp) hall
    have hmx : listMax (a :: t) = a := listMax_const _ a (by simp) hall
    unfold normalize_pattern
    rw [hmn, hmx, if_pos rfl]
    simp [List.map_const', List.replicate_succ]

/-- Witness for C8 at the concrete input `[0, 2]`. -/
theorem normalize_bounds_and_constant_witness :
    (∀ y ∈ normalize_pattern [0, 2], 0 ≤ y ∧ y ≤ 1) ∧
    ((∀ x ∈ ([0, 2] : List ℚ), x = ([0, 2] : List ℚ).headD 0) →
      normalize_pattern [0, 2] = List.replicate ([0, 2] : List ℚ).length (1/2)) :=
  normalize_bounds_and_constant [0, 2] (by simp)

/-- C5: for every input curve of non-zero length, `interp_pattern` returns a
curve of exactly `duration_min * 60 / timestep_sec` samples, and when the
input already has that length it is returned unchanged. -/
theorem interp_pattern_length_exact (cubic : List ℚ → ℕ → ℕ → ℚ) (pattern : List ℚ)
    (duration_min timestep_sec : ℕ) (h : pattern ≠ []) :
    (interp_pattern cubic pattern duration_min timestep_sec).length =
      duration_min * 60 / timestep_sec ∧
    (pattern.length = duration_min * 60 / timestep_sec →
      interp_pattern cubic pattern duration_min timestep_sec = pattern) := by
  constructor
  · unfold interp_pattern
    by_cases hl : duration_min * 60 / timestep_sec = pattern.length
    · simp [hl]
    · simp [hl]
  · intro hlen
    unfold interp_pattern
    simp [hlen]

/-- Witness for C5 at the concrete input `[1, 2]` with `duration_min = 2`,
`timestep_sec = 60`. -/
theorem interp_pattern_length_exact_witness :
    (interp_pattern (fun _ _ _ => (0 : ℚ)) [1, 2] 2 60).length = 2 * 60 / 60 ∧
    (([1, 2] : List ℚ).length = 2 * 60 / 60 →
      interp_pattern (fun _ _ _ => (0 : ℚ)) [1, 2] 2 60 = [1, 2]) :=
  interp_pattern_length_exact (fun _ _ _ => (0 : ℚ)) [1, 2] 2 60 (by simp)

/-- C6: `generate_single_activation_pattern` fails (the `ValueError` of
source line 143) exactly when the strategy identifier is none of the four
recognized ones (`weighted`, `interpolate`, `scaling`, `dtw`). -/
theorem dispatch_error_iff_unknown_method (cubic : List ℚ → ℕ → ℕ → ℚ)
    (dtwPath : List ℚ → List ℚ → List (ℕ × ℕ)) (templates : List Template)
    (nominal : ℚ) (duration_min : ℕ) (method : String) (baseline : ℚ)
    (timestep_native output_timestep ref_index : ℕ) :
    generate_single_activation_pattern cubic dtwPath templates nominal duration_min
        method baseline timestep_native output_timestep ref_index = .error () ↔
      ¬ (method = "weighted" ∨ method = "interpolate" ∨
         method = "scaling" ∨ method = "dtw") := by
  unfold generate_single_activation_pattern
  split_ifs with h1 h2 h3 h4 <;> simp_all

/-- Trivial stand-in for the abstracted cubic evaluator, used only on inputs
whose control flow never reaches the cubic resampling branch. -/
def cubicUnused : List ℚ → ℕ → ℕ → ℚ := fun _ _ _ => 0

/-- Trivial stand-in for the abstracted `fastdtw` path, used only where the
dtw branch is not taken or where the stated result holds for every path. -/
def dtwPathEmpty : List ℚ → List ℚ → List (ℕ × ℕ) := fun _ _ => []

lemma processTemplate_upswing :
    processTemplate cubicUnused ⟨[0, 1], 1, 120⟩ 100 2 0 60 = [0, 100] := by
  norm_num [processTemplate, normalize_pattern, listMin, listMax, scale_pattern, interp_pattern]

lemma processTemplate_downswing :
    processTemplate cubicUnused ⟨[1, 0], 1, 120⟩ 100 2 0 60 = [100, 0] := by
  norm_num [processTemplate, normalize_pattern, listMin, listMax, scale_pattern, interp_pattern]

lemma resample_output_two (a b : ℚ) : resample_output [a, b] 2 60 60 = [a, b] := by
  have h2 : List.range 2 = [0, 1] := by decide
  norm_num [resample_output, h2, npInterp]

/-- C4 counterexample: with two distinguishable templates and `ref_index = 1`,
the direct-scaling strategy still returns the processed template at index 0
(the dispatcher on source line 130 does not forward `ref_index`), not the
processed template at the caller-supplied index 1. -/
theorem scaling_ref_index_cex :
    generate_single_activation_pattern cubicUnused dtwPathEmpty
        [⟨[0, 1], 1, 120⟩, ⟨[1, 0], 1, 120⟩] 100 2 "scaling" 0 60 60 1 =
      .ok (resample_output (processTemplate cubicUnused ⟨[0, 1], 1, 120⟩ 100 2 0 60) 2 60 60) ∧
    generate_single_activation_pattern cubicUnused dtwPathEmpty
        [⟨[0, 1], 1, 120⟩, ⟨[1, 0], 1, 120⟩] 100 2 "scaling" 0 60 60 1 ≠
      .ok (resample_output (processTemplate cubicUnused ⟨[1, 0], 1, 120⟩ 100 2 0 60) 2 60 60) := by
  have h0 : generate_single_activation_pattern cubicUnused dtwPathEmpty
      [⟨[0, 1], 1, 120⟩, ⟨[1, 0], 1, 120⟩] 100 2 "scaling" 0 60 60 1 =
      .ok (resample_output (generate_scaling cubicUnused
        [⟨[0, 1], 1, 120⟩, ⟨[1, 0], 1, 120⟩] 100 2 0 60 0) 2 60 60) := by
    simp [generate_single_activation_pattern]
  have hsc : generate_scaling cubicUnused [⟨[0, 1], 1, 120⟩, ⟨[1, 0], 1, 120⟩] 100 2 0 60 0 =
      processTemplate cubicUnused ⟨[0, 1], 1, 120⟩ 100 2 0 60 := by
    simp [generate_scaling]
  refine ⟨by rw [h0, hsc], ?_⟩
  rw [h0, hsc, processTemplate_upswing, processTemplate_downswing,
    resample_output_two, resample_output_two]
  simp

/-- C4 as amended: the dispatcher invokes direct scaling without forwarding
`ref_index`, so the result is independent of `ref_index` and always processes
the template at index 0; the underlying `generate_scaling` does fall back to
index 0 when its own index argument is out of range. -/
theorem scaling_uses_index_zero (cubic : List ℚ → ℕ → ℕ → ℚ)
    (dtwPath : List ℚ → List ℚ → List (ℕ × ℕ)) (templates : List Template)
    (nominal : ℚ) (duration_min : ℕ) (baseline : ℚ)
    (timestep_native output_timestep : ℕ) :
    (∀ ri ri' : ℕ,
      generate_single_activation_pattern cubic dtwPath templates nominal duration_min
        "scaling" baseline timestep_native output_timestep ri =
      generate_single_activation_pattern cubic dtwPath templates nominal duration_min
        "scaling" baseline timestep_native output_timestep ri') ∧
    (∀ ri : ℕ,
      generate_single_activation_pattern cubic dtwPath templates nominal duration_min
        "scaling" baseline timestep_native output_timestep ri =
      .ok (resample_output (processTemplate cubic (templates.getD 0 default)
        nominal duration_min baseline timestep_native)
        duration_min timestep_native output_timestep)) ∧
    (∀ index : ℕ, templates.length ≤ index →
      generate_scaling cubic templates nominal duration_min baseline timestep_native index =
      generate_scaling cubic templates nominal duration_min baseline timestep_native 0) := by
  have hdisp : ∀ ri : ℕ,
      generate_single_activation_pattern cubic dtwPath templates nominal duration_min
        "scaling" baseline timestep_native output_timestep ri =
      .ok (resample_output (generate_scaling cubic templates nominal duration_min baseline
        timestep_native 0) duration_min timestep_native output_timestep) := by
    intro ri; simp [generate_single_activation_pattern]
  have hzero : generate_scaling cubic templates nominal duration_min baseline timestep_native 0 =
      processTemplate cubic (templates.getD 0 default) nominal duration_min baseline timestep_native := by
    unfold generate_scaling
    split_ifs <;> rfl
  refine ⟨fun ri ri' => by rw [hdisp ri, hdisp ri'], fun ri => by rw [hdisp ri, hzero], ?_⟩
  intro index hidx
  unfold generate_scaling
  have h1 : ¬ index < templates.length := not_lt.mpr hidx
  split_ifs with h2 h3 <;> simp_all

/-- Witness for the amended C4 at concrete inputs. -/
theorem scaling_uses_index_zero_witness :
    generate_single_activation_pattern cubicUnused dtwPathEmpty
        [⟨[0, 1], 1, 120⟩, ⟨[1, 0], 1, 120⟩] 100 2 "scaling" 0 60 60 1 =
      generate_single_activation_pattern cubicUnused dtwPathEmpty
        [⟨[0, 1], 1, 120⟩, ⟨[1, 0], 1, 120⟩] 100 2 "scaling" 0 60 60 7 ∧
    generate_scaling cubicUnused [⟨[0, 1], 1, 120⟩, ⟨[1, 0], 1, 120⟩] 100 2 0 60 5 =
      generate_scaling cubicUnused [⟨[0, 1], 1, 120⟩, ⟨[1, 0], 1, 120⟩] 100 2 0 60 0 :=
  ⟨(scaling_uses_index_zero cubicUnused dtwPathEmpty
      [⟨[0, 1], 1, 120⟩, ⟨[1, 0], 1, 120⟩] 100 2 0 60 60).1 1 7,
   (scaling_uses_index_zero cubicUnused dtwPathEmpty
      [⟨[0, 1], 1, 120⟩, ⟨[1, 0], 1, 120⟩] 100 2 0 60 60).2.2 5 (by norm_num)⟩

lemma npInterp_nonneg : ∀ (pts : List (ℚ × ℚ)) (x : ℚ),
    (∀ p ∈ pts, 0 ≤ p.2) → 0 ≤ npInterp x pts := by
  intro pts
  induction pts with
  | nil => intro x _; simp [npInterp]
  | cons p rest ih =>
    intro x hall
    cases rest with
    | nil =>
      obtain ⟨x1, y1⟩ := p
      have h1 := hall (x1, y1) (by simp)
      simpa [npInterp] using h1
    | cons q rest2 =>
      obtain ⟨x1, y1⟩ := p
      obtain ⟨x2, y2⟩ := q
      have hy1 : 0 ≤ y1 := hall (x1, y1) (by simp)
      have hy2 : 0 ≤ y2 := hall (x2, y2) (by simp)
      simp only [npInterp]
      split_ifs with h1 h2
      · exact hy1
      · have hx1 : x1 < x := not_le.mp h1
        have hd : 0 < x2 - x1 := by linarith
        have key : y1 + (y2 - y1) * (x - x1) / (x2 - x1) =
            (y1 * (x2 - x) + y2 * (x - x1)) / (x2 - x1) := by
          field_simp; ring
        rw [key]
        apply div_nonneg _ (le_of_lt hd)
        have ha : (0:ℚ) ≤ x2 - x := by linarith
        have hb : (0:ℚ) ≤ x - x1 := by linarith
        exact add_nonneg (mul_nonneg hy1 ha) (mul_nonneg hy2 hb)
      · exact ih x (fun r hr => hall r (List.mem_cons_of_mem _ hr))

lemma getD_map_max_nonneg (l : List ℚ) (i : ℕ) :
    0 ≤ (l.map (fun v => max v 0)).getD i 0 := by
  induction l generalizing i with
  | nil => simp
  | cons a t ih =>
    cases i with
    | zero => simpa using le_max_right a 0
    | succ n => simpa using ih n

lemma resample_output_nonneg (native : List ℚ) (dm tn tout : ℕ)
    (h : ∀ i, 0 ≤ native.getD i 0) :
    ∀ y ∈ resample_output native dm tn tout, 0 ≤ y := by
  intro y hy
  unfold resample_output at hy
  rcases List.mem_map.mp hy with ⟨j, _, rfl⟩
  apply npInterp_nonneg
  intro p hp
  rcases List.mem_map.mp hp with ⟨i, _, rfl⟩
  exact h i

lemma generate_weighted_average_clamped (cubic : List ℚ → ℕ → ℕ → ℚ)
    (templates : List Template) (nominal : ℚ) (duration_min : ℕ) (baseline : ℚ)
    (timestep_sec : ℕ) :
    ∃ l : List ℚ, generate_weighted_average cubic templates nominal duration_min baseline timestep_sec =
      l.map (fun v => max v 0) :=
  ⟨_, rfl⟩

lemma dtw_average_native_clamped (cubic : List ℚ → ℕ → ℕ → ℚ)
    (dtwPath : List ℚ → List ℚ → List (ℕ × ℕ)) (templates : List Template)
    (nominal : ℚ) (duration_min : ℕ) (baseline : ℚ) (timestep_sec ref_index : ℕ) :
    ∃ l : List ℚ, dtw_average_native cubic dtwPath templates nominal duration_min baseline
        timestep_sec ref_index = l.map (fun v => max v 0) :=
  ⟨_, rfl⟩

/-- C3 as amended: the weighted-average and DTW-average strategies clamp
their native curve at zero, and the final linear output resampling preserves
non-negativity, so every returned sample is non-negative for those two
strategies; the direct-scaling and nearest-two-interpolation strategies do
not clamp, and can return negative samples (see the counterexample with a
negative baseline). -/
theorem weighted_and_dtw_nonneg (cubic : List ℚ → ℕ → ℕ → ℚ)
    (dtwPath : List ℚ → List ℚ → List (ℕ × ℕ)) (templates : List Template)
    (nominal : ℚ) (duration_min : ℕ) (baseline : ℚ)
    (timestep_native output_timestep ref_index : ℕ) :
    (∀ out, generate_single_activation_pattern cubic dtwPath templates nominal duration_min
        "weighted" baseline timestep_native output_timestep ref_index = .ok out →
      ∀ y ∈ out, 0 ≤ y) ∧
    (∀ out, generate_single_activation_pattern cubic dtwPath templates nominal duration_min
        "dtw" baseline timestep_native output_timestep ref_index = .ok out →
      ∀ y ∈ out, 0 ≤ y) := by
  constructor
  · intro out hout
    have hd : generate_single_activation_pattern cubic dtwPath templates nominal duration_min
        "weighted" baseline timestep_native output_timestep ref_index =
        .ok (resample_output (generate_weighted_average cubic templates nominal duration_min
          baseline timestep_native) duration_min timestep_native output_timestep) := by
      simp [generate_single_activation_pattern]
    rw [hd] at hout
    obtain ⟨l, hl⟩ := generate_weighted_average_clamped cubic templates nominal duration_min
      baseline timestep_native
    cases hout
    apply resample_output_nonneg
    intro i
    rw [hl]
    exact getD_map_max_nonneg l i
  · intro out hout
    have hd : generate_single_activation_pattern cubic dtwPath templates nominal duration_min
        "dtw" baseline timestep_native output_timestep ref_index =
        .ok (resample_output (dtw_average_native cubic dtwPath templates nominal duration_min
          baseline timestep_native ref_index) duration_min timestep_native output_timestep) := by
      simp [generate_single_activation_pattern]
    rw [hd] at hout
    obtain ⟨l, hl⟩ := dtw_average_native_clamped cubic dtwPath templates nominal duration_min
      baseline timestep_native ref_index
    cases hout
    apply resample_output_nonneg
    intro i
    rw [hl]
    exact getD_map_max_nonneg l i

/-- C3 counterexample: under the direct-scaling strategy (which never clamps)
a negative baseline yields a negative sample in the returned activation
curve, refuting non-negativity for all four strategies and parameter sets. -/
theorem synthesize_nonneg_cex :
    generate_single_activation_pattern cubicUnused dtwPathEmpty [⟨[0, 1], 1, 120⟩]
        100 2 "scaling" (-50) 60 60 0 = .ok [-50, 100] ∧ ((-50 : ℚ) < 0) := by
  have hp : processTemplate cubicUnused ⟨[0, 1], 1, 120⟩ 100 2 (-50) 60 = [-50, 100] := by
    norm_num [processTemplate, normalize_pattern, listMin, listMax, scale_pattern, interp_pattern]
  have hsc : generate_scaling cubicUnused [⟨[0, 1], 1, 120⟩] 100 2 (-50) 60 0 = [-50, 100] := by
    simp [generate_scaling, hp]
  constructor
  · simp [generate_single_activation_pattern, hsc, resample_output_two]
  · norm_num

/-- Witness for the amended C3 on concrete weighted and dtw runs. -/
theorem weighted_and_dtw_nonneg_witness :
    (∀ y ∈ ([0, 1] : List ℚ), 0 ≤ y) ∧ (∀ y ∈ ([0, 0] : List ℚ), 0 ≤ y) := by
  have h := weighted_and_dtw_nonneg cubicUnused dtwPathEmpty [⟨[0, 1], 1, 120⟩] 1 2 0 60 60 0
  have hpt : processTemplate cubicUnused ⟨[0, 1], 1, 120⟩ 1 2 0 60 = [0, 1] := by
    norm_num [processTemplate, normalize_pattern, listMin, listMax, scale_pattern, interp_pattern]
  have hw : generate_single_activation_pattern cubicUnused dtwPathEmpty [⟨[0, 1], 1, 120⟩]
      1 2 "weighted" 0 60 60 0 = .ok [0, 1] := by
    have hga : generate_weighted_average cubicUnused [⟨[0, 1], 1, 120⟩] 1 2 0 60 = [0, 1] := by
      norm_num [generate_weighted_average, hpt, List.replicate_succ, max_def]
    simp [generate_single_activation_pattern, hga, resample_output_two]
  have hdtw : generate_single_activation_pattern cubicUnused dtwPathEmpty [⟨[0, 1], 1, 120⟩]
      1 2 "dtw" 0 60 60 0 = .ok [0, 0] := by
    have hda : dtw_average_native cubicUnused dtwPathEmpty [⟨[0, 1], 1, 120⟩] 1 2 0 60 0 = [0, 0] := by
      have h2 : List.range 2 = [0, 1] := by decide
      norm_num [dtw_average_native, hpt, align_dtw, dtwPathEmpty, h2]
    simp [generate_single_activation_pattern, hda, resample_output_two]
  exact ⟨h.1 [0, 1] hw, h.2 [0, 0] hdtw⟩

lemma foldl_accumulate_length {α : Type} [AddCommMonoid α] (f : ℕ × ℕ → α) :
    ∀ (path : List (ℕ × ℕ)) (init : List α),
      (path.foldl (fun a p => a.set p.2 (a.getD p.2 0 + f p)) init).length = init.length := by
  intro path
  induction path with
  | nil => intro init; rfl
  | cons p rest ih =>
    intro init
    rw [List.foldl_cons, ih]
    simp

lemma foldl_accumulate_getD {α : Type} [AddCommMonoid α] (f : ℕ × ℕ → α) :
    ∀ (path : List (ℕ × ℕ)) (init : List α) (j : ℕ), j < init.length →
      (path.foldl (fun a p => a.set p.2 (a.getD p.2 0 + f p)) init).getD j 0 =
        init.getD j 0 + ((path.filter (fun p => p.2 = j)).map f).sum := by
  intro path
  induction path with
  | nil => intro init j _; simp
  | cons p rest ih =>
    intro init j hj
    rw [List.foldl_cons]
    by_cases hpj : p.2 = j
    · rw [ih _ j (by simpa using hj)]
      have hset : (init.set p.2 (init.getD p.2 0 + f p)).getD j 0 = init.getD j 0 + f p := by
        subst hpj
        rw [List.getD_eq_getElem?_getD, List.getElem?_set_eq_of_lt _ hj,
          List.getD_eq_getElem?_getD]
        simp [List.getElem?_eq_getElem hj]
      rw [hset, List.filter_cons_of_pos (by simpa using hpj), List.map_cons, List.sum_cons,
        add_assoc]
    · rw [ih _ j (by simpa using hj)]
      have hset : (init.set p.2 (init.getD p.2 0 + f p)).getD j 0 = init.getD j 0 := by
        rw [List.getD_eq_getElem?_getD, List.getElem?_set_ne hpj, List.getD_eq_getElem?_getD]
      rw [hset, List.filter_cons_of_neg (by simpa using hpj)]


/-- C9: for every alignment path (in particular whichever path `fastdtw`
returns) the aligned curve has exactly the reference curve's length; each
index holds the mean of the template values the path maps to it, and an
index with zero contributions holds 0 (its count is bumped to 1 and its
accumulator is still 0). -/
theorem align_dtw_reference_mean (path : List (ℕ × ℕ)) (template ref : List ℚ)
    (hpath : ∀ p ∈ path, p.1 < template.length) :
    (align_dtw path template ref).length = ref.length ∧
    ∀ j, j < ref.length →
      (align_dtw path template ref).getD j 0 =
        (if (path.filter (fun p => p.2 = j)).length = 0 then 0
         else ((path.filter (fun p => p.2 = j)).map (fun p => template.getD p.1 0)).sum /
           ((path.filter (fun p => p.2 = j)).length : ℚ)) := by
  have _ := hpath
  have halen : (path.foldl (fun a p => a.set p.2 (a.getD p.2 0 + template.getD p.1 0))
      (List.replicate ref.length (0 : ℚ))).length = ref.length := by
    rw [foldl_accumulate_length (fun p => template.getD p.1 0)]
    simp
  have hclen : (path.foldl (fun c p => c.set p.2 (c.getD p.2 0 + 1))
      (List.replicate ref.length (0 : ℚ))).length = ref.length := by
    rw [foldl_accumulate_length (fun _ => 1)]
    simp
  have hlen : (align_dtw path template ref).length = ref.length := by
    unfold align_dtw
    rw [List.length_zipWith, halen, hclen, min_self]
  refine ⟨hlen, ?_⟩
  intro j hj
  have haj : (path.foldl (fun a p => a.set p.2 (a.getD p.2 0 + template.getD p.1 0))
      (List.replicate ref.length (0 : ℚ))).getD j 0 =
      ((path.filter (fun p => p.2 = j)).map (fun p => template.getD p.1 0)).sum := by
    rw [foldl_accumulate_getD (fun p => template.getD p.1 0) path _ j (by simpa using hj)]
    simp
  have hcj : (path.foldl (fun c p => c.set p.2 (c.getD p.2 0 + 1))
      (List.replicate ref.length (0 : ℚ))).getD j 0 =
      ((path.filter (fun p => p.2 = j)).length : ℚ) := by
    rw [foldl_accumulate_getD (fun _ => 1) path _ j (by simpa using hj)]
    simp [List.map_const']
  have hj1 : j < (path.foldl (fun a p => a.set p.2 (a.getD p.2 0 + template.getD p.1 0))
      (List.replicate ref.length (0 : ℚ))).length := by rw [halen]; exact hj
  have hj2 : j < (path.foldl (fun c p => c.set p.2 (c.getD p.2 0 + 1))
      (List.replicate ref.length (0 : ℚ))).length := by rw [hclen]; exact hj
  have hjz : j < (align_dtw path template ref).length := by rw [hlen]; exact hj
  have hgd : (align_dtw path template ref).getD j 0 =
      (path.foldl (fun a p => a.set p.2 (a.getD p.2 0 + template.getD p.1 0))
        (List.replicate ref.length (0 : ℚ))).getD j 0 /
      (if (path.foldl (fun c p => c.set p.2 (c.getD p.2 0 + 1))
        (List.replicate ref.length (0 : ℚ))).getD j 0 = 0 then 1
       else (path.foldl (fun c p => c.set p.2 (c.getD p.2 0 + 1))
        (List.replicate ref.length (0 : ℚ))).getD j 0) := by
    conv_lhs => rw [List.getD_eq_getElem _ 0 hjz]
    unfold align_dtw
    rw [List.getElem_zipWith]
    rw [← List.getD_eq_getElem _ 0 hj1, ← List.getD_eq_getElem _ 0 hj2]
  rw [hgd, haj, hcj]
  by_cases hz : (path.filter (fun p => p.2 = j)).length = 0
  · rw [if_pos (by exact_mod_cast hz), if_pos hz]
    have he : (path.filter (fun p => p.2 = j)) = [] := List.length_eq_zero.mp hz
    simp [he]
  · rw [if_neg (by exact_mod_cast hz), if_neg hz]

/-- Witness for C9 at a concrete path, template and reference. -/
theorem align_dtw_reference_mean_witness :
    (align_dtw [(0, 0), (1, 0)] [2, 4] [5]).length = ([5] : List ℚ).length ∧
    ∀ j, j < ([5] : List ℚ).length →
      (align_dtw [(0, 0), (1, 0)] [2, 4] [5]).getD j 0 =
        (if (([(0, 0), (1, 0)] : List (ℕ × ℕ)).filter (fun p => p.2 = j)).length = 0 then 0
         else ((([(0, 0), (1, 0)] : List (ℕ × ℕ)).filter (fun p => p.2 = j)).map
             (fun p => ([2, 4] : List ℚ).getD p.1 0)).sum /
           ((([(0, 0), (1, 0)] : List (ℕ × ℕ)).filter (fun p => p.2 = j)).length : ℚ)) :=
  align_dtw_reference_mean [(0, 0), (1, 0)] [2, 4] [5] (by decide)

lemma sampleStep_length (oracle : ℕ → ℕ) :
    ∀ (k step : ℕ) (pool : List ℕ), k ≤ pool.length →
      (sampleStep oracle step k pool).length = k := by
  intro k
  induction k with
  | zero => intro step pool _; rfl
  | succ n ih =>
    intro step pool hk
    have hpos : 0 < pool.length := lt_of_lt_of_le (Nat.succ_pos n) hk
    have hlt : oracle step % pool.length < pool.length := Nat.mod_lt _ hpos
    have hx : pool.getD (oracle step % pool.length) 0 ∈ pool := by
      rw [List.getD_eq_getElem _ 0 hlt]
      exact List.getElem_mem hlt
    simp only [sampleStep, List.length_cons]
    rw [ih (step + 1) _ (by rw [List.length_erase_of_mem hx]; omega)]

lemma sampleStep_subset (oracle : ℕ → ℕ) :
    ∀ (k step : ℕ) (pool : List ℕ), k ≤ pool.length →
      ∀ x ∈ sampleStep oracle step k pool, x ∈ pool := by
  intro k
  induction k with
  | zero => intro step pool _ x hx; cases hx
  | succ n ih =>
    intro step pool hk x hx
    have hpos : 0 < pool.length := lt_of_lt_of_le (Nat.succ_pos n) hk
    have hlt : oracle step % pool.length < pool.length := Nat.mod_lt _ hpos
    have hmem : pool.getD (oracle step % pool.length) 0 ∈ pool := by
      rw [List.getD_eq_getElem _ 0 hlt]
      exact List.getElem_mem hlt
    simp only [sampleStep] at hx
    rcases List.mem_cons.mp hx with rfl | htail
    · exact hmem
    · exact List.mem_of_mem_erase
        (ih (step + 1) _ (by rw [List.length_erase_of_mem hmem]; omega) x htail)

lemma sampleStep_nodup (oracle : ℕ → ℕ) :
    ∀ (k step : ℕ) (pool : List ℕ), pool.Nodup → k ≤ pool.length →
      (sampleStep oracle step k pool).Nodup := by
  intro k
  induction k with
  | zero => intro step pool _ _; exact List.nodup_nil
  | succ n ih =>
    intro step pool hnd hk
    have hpos : 0 < pool.length := lt_of_lt_of_le (Nat.succ_pos n) hk
    have hlt : oracle step % pool.length < pool.length := Nat.mod_lt _ hpos
    have hmem : pool.getD (oracle step % pool.length) 0 ∈ pool := by
      rw [List.getD_eq_getElem _ 0 hlt]
      exact List.getElem_mem hlt
    have herlen : n ≤ (pool.erase (pool.getD (oracle step % pool.length) 0)).length := by
      rw [List.length_erase_of_mem hmem]; omega
    simp only [sampleStep, List.nodup_cons]
    refine ⟨fun hin => ?_, ih (step + 1) _ (hnd.erase _) herlen⟩
    have hin2 := sampleStep_subset oracle n (step + 1) _ herlen _ hin
    rw [List.Nodup.mem_erase_iff hnd] at hin2
    exact hin2.1 rfl

/-- C7: for every day of the uniform-random-daily placer, if
`day_length - T <= 0` the day is skipped without error, and in every case
the draw succeeds (never raises) and yields exactly
`min(activations_per_day, day_length - T)` distinct start offsets inside
`[0, day_length - T)`. -/
theorem uniform_daily_day_quota (oracle : ℕ → ℕ) (dayLen T apd : ℕ) :
    (dayLen ≤ T → uniformDayOffsets oracle dayLen T apd = .ok []) ∧
    ∃ offs, uniformDayOffsets oracle dayLen T apd = .ok offs ∧
      offs.length = min apd (dayLen - T) ∧ offs.Nodup ∧ ∀ o ∈ offs, o < dayLen - T := by
  constructor
  · intro hskip
    unfold uniformDayOffsets
    rw [if_neg (by omega)]
  · unfold uniformDayOffsets
    by_cases hT : T < dayLen
    · rw [if_pos hT]
      by_cases hnum : 0 < min apd (dayLen - T)
      · rw [if_pos hnum]
        unfold randomSample
        rw [if_pos (min_le_right _ _)]
        have hlenpool : (List.range (dayLen - T)).length = dayLen - T := List.length_range _
        have hk : min apd (dayLen - T) ≤ (List.range (dayLen - T)).length := by
          rw [hlenpool]; exact min_le_right _ _
        refine ⟨_, rfl, sampleStep_length oracle _ 0 _ hk,
          sampleStep_nodup oracle _ 0 _ (List.nodup_range _) hk, ?_⟩
        intro o ho
        have := sampleStep_subset oracle _ 0 _ hk o ho
        exact List.mem_range.mp this
      · rw [if_neg hnum]
        refine ⟨[], rfl, by simp only [List.length_nil]; omega, List.nodup_nil, by simp⟩
    · rw [if_neg hT]
      refine ⟨[], rfl, ?_, List.nodup_nil, by simp⟩
      have : dayLen - T = 0 := by omega
      rw [this]
      simp

/-- Witness for C7: a skipped day, and a day where the requested count
exceeds the available start positions. -/
theorem uniform_daily_day_quota_witness :
    uniformDayOffsets (fun _ => 0) 5 9 3 = .ok [] ∧
    ∃ offs, uniformDayOffsets (fun _ => 0) 5 2 10 = .ok offs ∧
      offs.length = min 10 (5 - 2) ∧ offs.Nodup ∧ ∀ o ∈ offs, o < 5 - 2 :=
  ⟨(uniform_daily_day_quota (fun _ => 0) 5 9 3).1 (by norm_num),
   (uniform_daily_day_quota (fun _ => 0) 5 2 10).2⟩

lemma foldl_overlay_length (pos : ℕ) (curve : List ℚ) :
    ∀ (l : List ℕ) (s : List ℚ),
      (l.foldl (fun s i => if pos + i < s.length
        then s.set (pos + i) (max (s.getD (pos + i) 0) (curve.getD i 0))
        else s) s).length = s.length := by
  intro l
  induction l with
  | nil => intro s; rfl
  | cons a t ih =>
    intro s
    rw [List.foldl_cons]
    by_cases h : pos + a < s.length
    · rw [if_pos h, ih, List.length_set]
    · rw [if_neg h, ih]

lemma overlayActivation_length (series : List ℚ) (pos : ℕ) (curve : List ℚ) :
    (overlayActivation series pos curve).length = series.length :=
  foldl_overlay_length pos curve _ series

lemma foldl_overlay_getD_untouched (pos j : ℕ) (curve : List ℚ) :
    ∀ (l : List ℕ) (s : List ℚ), (∀ i ∈ l, pos + i ≠ j) →
      (l.foldl (fun s i => if pos + i < s.length
        then s.set (pos + i) (max (s.getD (pos + i) 0) (curve.getD i 0))
        else s) s).getD j 0 = s.getD j 0 := by
  intro l
  induction l with
  | nil => intro s _; rfl
  | cons a t ih =>
    intro s hne
    rw [List.foldl_cons]
    by_cases h : pos + a < s.length
    · rw [if_pos h, ih _ (fun i hi => hne i (List.mem_cons_of_mem a hi)),
        List.getD_eq_getElem?_getD, List.getElem?_set_ne (hne a (List.mem_cons_self a t)),
        ← List.getD_eq_getElem?_getD]
    · rw [if_neg h, ih _ (fun i hi => hne i (List.mem_cons_of_mem a hi))]

lemma overlayActivation_getD_untouched (series : List ℚ) (pos : ℕ) (curve : List ℚ)
    (j : ℕ) (h : ¬ (pos ≤ j ∧ j < pos + curve.length)) :
    (overlayActivation series pos curve).getD j 0 = series.getD j 0 := by
  apply foldl_overlay_getD_untouched
  intro i hi
  have : i < curve.length := List.mem_range.mp hi
  omega

lemma placeActivations_length (series : List ℚ) (starts : List ℕ) (curve : List ℚ) :
    (placeActivations series starts curve).length = series.length := by
  induction starts generalizing series with
  | nil => rfl
  | cons p t ih =>
    unfold placeActivations
    rw [List.foldl_cons]
    calc ((t.foldl (fun s p => overlayActivation s p curve) (overlayActivation series p curve))).length
        = (overlayActivation series p curve).length := ih (overlayActivation series p curve)
      _ = series.length := overlayActivation_length series p curve

lemma placeActivations_getD_untouched (series : List ℚ) (starts : List ℕ) (curve : List ℚ)
    (j : ℕ) (h : ∀ s ∈ starts, ¬ (s ≤ j ∧ j < s + curve.length)) :
    (placeActivations series starts curve).getD j 0 = series.getD j 0 := by
  induction starts generalizing series with
  | nil => rfl
  | cons p t ih =>
    unfold placeActivations
    rw [List.foldl_cons]
    calc ((t.foldl (fun s p => overlayActivation s p curve) (overlayActivation series p curve))).getD j 0
        = (overlayActivation series p curve).getD j 0 :=
          ih (overlayActivation series p curve) (fun s hs => h s (List.mem_cons_of_mem p hs))
      _ = series.getD j 0 :=
          overlayActivation_getD_untouched series p curve j (h p (List.mem_cons_self p t))

lemma getD_replicate_zero (n j : ℕ) : (List.replicate n (0 : ℚ)).getD j 0 = 0 := by
  rw [List.getD_eq_getElem?_getD, List.getElem?_replicate]
  split_ifs <;> rfl

lemma zip_getD_snd (grid : List ℕ) (series : List ℚ) (j : ℕ)
    (hj : j < (grid.zip series).length) :
    ((grid.zip series).getD j (0, 0)).2 = series.getD j 0 := by
  rw [List.getD_eq_getElem _ _ hj, List.getElem_zip]
  have hj2 : j < series.length := by
    rw [List.length_zip] at hj; omega
  rw [List.getD_eq_getElem _ _ hj2]

/-- C10: in both placers, overlaying an activation whose extent runs past the
final grid index writes only in-grid samples and never changes the series
length; every grid position not covered by any accepted activation keeps
power exactly 0. -/
theorem overlay_clipping_keeps_grid (oracle oracleP : ℕ → ℕ → ℕ) (pattern : List ℚ)
    (start endT step apd : ℕ) (schedule : ScheduleConfig) :
    (∀ starts, uniformAllStarts oracle pattern.length start endT step apd = .ok starts →
      ∃ out, generate_timeseries_with_activations oracle pattern start endT step apd = .ok out ∧
        out.length = (gridTimes start endT step).length ∧
        ∀ j, j < out.length →
          (∀ s ∈ starts, ¬ (s ≤ j ∧ j < s + pattern.length)) →
          (out.getD j (0, 0)).2 = 0) ∧
    ((generate_timeseries_with_probabilistic_schedule oracleP pattern start endT step
        schedule).length = (gridTimes start endT step).length ∧
      ∀ j, j < (generate_timeseries_with_probabilistic_schedule oracleP pattern start endT step
          schedule).length →
        (∀ s ∈ probabilisticAllStarts oracleP pattern.length start endT step schedule,
          ¬ (s ≤ j ∧ j < s + pattern.length)) →
        ((generate_timeseries_with_probabilistic_schedule oracleP pattern start endT step
          schedule).getD j (0, 0)).2 = 0) := by
  constructor
  · intro starts hs
    refine ⟨(gridTimes start endT step).zip
      (placeActivations (List.replicate (gridTimes start endT step).length 0) starts pattern),
      ?_, ?_, ?_⟩
    · unfold generate_timeseries_with_activations
      rw [hs]
      rfl
    · rw [List.length_zip, placeActivations_length, List.length_replicate, min_self]
    · intro j hj hun
      rw [zip_getD_snd _ _ j hj,
        placeActivations_getD_untouched _ starts pattern j hun, getD_replicate_zero]
  · constructor
    · unfold generate_timeseries_with_probabilistic_schedule
      rw [List.length_zip, placeActivations_length, List.length_replicate, min_self]
    · intro j hj hun
      unfold generate_timeseries_with_probabilistic_schedule at hj ⊢
      rw [zip_getD_snd _ _ j hj,
        placeActivations_getD_untouched _ _ pattern j hun, getD_replicate_zero]

/-- Witness for C10: concrete three-sample windows for both placers, with an
uncovered grid position holding power 0. -/
theorem overlay_clipping_keeps_grid_witness :
    (∃ out, generate_timeseries_with_activations (fun _ _ => 0) [5] 0 120 60 1 = .ok out ∧
      (out.getD 2 (0, 0)).2 = 0) ∧
    ((generate_timeseries_with_probabilistic_schedule (fun _ _ => 0) [5] 0 120 60
      ⟨1, [], []⟩).getD 2 (0, 0)).2 = 0 := by
  have h := overlay_clipping_keeps_grid (fun _ _ => 0) (fun _ _ => 0) [5] 0 120 60 1 ⟨1, [], []⟩
  have hstarts : uniformAllStarts (fun _ _ => 0) ([(5 : ℚ)] : List ℚ).length 0 120 60 1 =
      .ok [0] := rfl
  obtain ⟨out, hgen, hlen, hz⟩ := h.1 [0] hstarts
  have hglen : (gridTimes 0 120 60).length = 3 := rfl
  refine ⟨⟨out, hgen, hz 2 (by rw [hlen, hglen]; norm_num) ?_⟩, ?_⟩
  · intro s hs
    have : s = 0 := List.mem_singleton.mp hs
    subst this
    simp
  · have hplen : (generate_timeseries_with_probabilistic_schedule (fun _ _ => 0) [5] 0 120 60
        ⟨1, [], []⟩).length = (gridTimes 0 120 60).length := h.2.1
    apply h.2.2 2 (by rw [hplen, hglen]; norm_num)
    intro s hs
    have hempty : probabilisticAllStarts (fun _ _ => 0) ([(5 : ℚ)] : List ℚ).length 0 120 60
        ⟨1, [], []⟩ = [] := rfl
    rw [hempty] at hs
    cases hs

lemma pairwise_sep_append_single (T : ℕ) (sel : List ℕ) (x : ℕ)
    (hp : sel.Pairwise (fun a b => T ≤ Nat.dist a b))
    (hno : ¬ (sel.any (fun e => Nat.dist x e < T) = true)) :
    (sel ++ [x]).Pairwise (fun a b => T ≤ Nat.dist a b) := by
  rw [List.pairwise_append]
  refine ⟨hp, List.pairwise_singleton _ _, ?_⟩
  intro a ha b hb
  have hbx : b = x := List.mem_singleton.mp hb
  subst hbx
  have h3 : ¬ Nat.dist b a < T := by
    intro hlt
    exact hno (List.any_eq_true.mpr ⟨a, ha, by simpa using hlt⟩)
  rw [Nat.dist_comm]
  omega

lemma selectLoop_pairwise_sep (oracle : ℕ → ℕ) (tIndices : List ℕ) (T target : ℕ) :
    ∀ (fuel attempt : ℕ) (sel : List ℕ),
      sel.Pairwise (fun a b => T ≤ Nat.dist a b) →
      (selectLoop oracle tIndices T target attempt fuel sel).Pairwise
        (fun a b => T ≤ Nat.dist a b) := by
  intro fuel
  induction fuel with
  | zero => intro attempt sel h; exact h
  | succ n ih =>
    intro attempt sel h
    simp only [selectLoop]
    split_ifs with h1 h2
    · exact ih _ _ h
    · apply ih
      apply pairwise_sep_append_single T sel _ h
      intro hc
      exact h2 (Or.inl hc)
    · exact h

lemma fallbackFill_pairwise_sep (tIndices : List ℕ) (T target : ℕ) :
    ∀ (order : List ℕ) (sel : List ℕ),
      sel.Pairwise (fun a b => T ≤ Nat.dist a b) →
      (fallbackFill tIndices order T target sel).Pairwise
        (fun a b => T ≤ Nat.dist a b) := by
  intro order
  induction order with
  | nil => intro sel h; exact h
  | cons i rest ih =>
    intro sel h
    rw [show fallbackFill tIndices (i :: rest) T target sel =
      fallbackFill tIndices rest T target
        (if target ≤ sel.length then sel
         else if sel.any (fun e => Nat.dist (tIndices.getD i 0) e < T) ∨ tIndices.getD i 0 ∈ sel
           then sel
         else sel ++ [tIndices.getD i 0]) from rfl]
    split_ifs with h1 h2
    · exact ih sel h
    · exact ih sel h
    · apply ih
      apply pairwise_sep_append_single T sel _ h
      intro hc
      exact h2 (Or.inl hc)

/-- C2 as amended: within any single calendar week, no two start positions
accepted by the probabilistic-weekly placer lie within `T` samples of each
other; the per-week overlap check does not extend across week boundaries
(see the cross-week counterexample). -/
theorem prob_weekly_no_overlap_within_week (oracle : ℕ → ℕ) (grid : List ℕ) (T : ℕ)
    (weekday_probs weekend_probs : List ℚ) (apw endT wk : ℕ) :
    (weekSelectedStarts oracle grid T weekday_probs weekend_probs apw endT wk).Pairwise
      (fun a b => T ≤ Nat.dist a b) := by
  simp only [weekSelectedStarts]
  split_ifs <;>
    first
      | exact List.Pairwise.nil
      | exact fallbackFill_pairwise_sep _ T _ _ _
          (selectLoop_pairwise_sep _ _ T _ _ 0 [] List.Pairwise.nil)
      | exact selectLoop_pairwise_sep _ _ T _ _ 0 [] List.Pairwise.nil

/-- C2 counterexample: over a window spanning a Sunday (end of one ISO week)
and the following Monday, the placer accepts grid index 23 (Sunday 23:00) in
the first week and grid index 24 (Monday 00:00) in the second week, which
are 1 < T = 2 samples apart: the no-overlap rejection is only applied
within each week, not across the whole calendar window. -/
theorem prob_weekly_cross_week_overlap_cex :
    23 ∈ probabilisticAllStarts
        (fun wk attempt => if wk = 0 then [23, 0, 2, 4, 6, 8, 10, 12].getD attempt 0 else 0)
        ([(100 : ℚ), 100]).length 518400 687600 3600 ⟨7, [((0, 24), 1)], [((0, 24), 1)]⟩ ∧
    24 ∈ probabilisticAllStarts
        (fun wk attempt => if wk = 0 then [23, 0, 2, 4, 6, 8, 10, 12].getD attempt 0 else 0)
        ([(100 : ℚ), 100]).length 518400 687600 3600 ⟨7, [((0, 24), 1)], [((0, 24), 1)]⟩ ∧
    Nat.dist 23 24 < ([(100 : ℚ), 100]).length := by
  refine ⟨by decide, by decide, by decide⟩

lemma selectLoop_length_le (oracle : ℕ → ℕ) (tIndices : List ℕ) (T target : ℕ) :
    ∀ (fuel attempt : ℕ) (sel : List ℕ), sel.length ≤ target →
      (selectLoop oracle tIndices T target attempt fuel sel).length ≤ target := by
  intro fuel
  induction fuel with
  | zero => intro attempt sel h; exact h
  | succ n ih =>
    intro attempt sel h
    simp only [selectLoop]
    split_ifs with h1 h2
    · exact ih _ _ h
    · exact ih _ _ (by rw [List.length_append, List.length_singleton]; omega)
    · exact h

lemma selectLoop_nodup (oracle : ℕ → ℕ) (tIndices : List ℕ) (T target : ℕ) :
    ∀ (fuel attempt : ℕ) (sel : List ℕ), sel.Nodup →
      (selectLoop oracle tIndices T target attempt fuel sel).Nodup := by
  intro fuel
  induction fuel with
  | zero => intro attempt sel h; exact h
  | succ n ih =>
    intro attempt sel h
    simp only [selectLoop]
    split_ifs with h1 h2
    · exact ih _ _ h
    · refine ih _ _ ?_
      rw [List.nodup_append]
      refine ⟨h, List.nodup_singleton _, ?_⟩
      intro a ha hb
      rcases List.mem_singleton.mp hb with rfl
      exact h2 (Or.inr ha)
    · exact h

lemma fallbackFill_saturated (tIndices : List ℕ) (T target : ℕ) :
    ∀ (order : List ℕ) (sel : List ℕ), target ≤ sel.length →
      fallbackFill tIndices order T target sel = sel := by
  intro order
  induction order with
  | nil => intro sel _; rfl
  | cons i rest ih =>
    intro sel h
    rw [show fallbackFill tIndices (i :: rest) T target sel =
      fallbackFill tIndices rest T target
        (if target ≤ sel.length then sel
         else if sel.any (fun e => Nat.dist (tIndices.getD i 0) e < T) ∨ tIndices.getD i 0 ∈ sel
           then sel
         else sel ++ [tIndices.getD i 0]) from rfl]
    rw [if_pos h]
    exact ih sel h

lemma fallbackFill_length_le (tIndices : List ℕ) (T target : ℕ) :
    ∀ (order : List ℕ) (sel : List ℕ), sel.length ≤ target →
      (fallbackFill tIndices order T target sel).length ≤ target := by
  intro order
  induction order with
  | nil => intro sel h; exact h
  | cons i rest ih =>
    intro sel h
    rw [show fallbackFill tIndices (i :: rest) T target sel =
      fallbackFill tIndices rest T target
        (if target ≤ sel.length then sel
         else if sel.any (fun e => Nat.dist (tIndices.getD i 0) e < T) ∨ tIndices.getD i 0 ∈ sel
           then sel
         else sel ++ [tIndices.getD i 0]) from rfl]
    split_ifs with h1 h2
    · exact ih sel h
    · exact ih sel h
    · exact ih _ (by rw [List.length_append, List.length_singleton]; omega)

lemma fallbackFill_sel_subset (tIndices : List ℕ) (T target : ℕ) :
    ∀ (order : List ℕ) (sel : List ℕ), sel ⊆ fallbackFill tIndices order T target sel := by
  intro order
  induction order with
  | nil => intro sel; exact fun x hx => hx
  | cons i rest ih =>
    intro sel
    rw [show fallbackFill tIndices (i :: rest) T target sel =
      fallbackFill tIndices rest T target
        (if target ≤ sel.length then sel
         else if sel.any (fun e => Nat.dist (tIndices.getD i 0) e < T) ∨ tIndices.getD i 0 ∈ sel
           then sel
         else sel ++ [tIndices.getD i 0]) from rfl]
    split_ifs with h1 h2
    · exact ih sel
    · exact ih sel
    · exact fun x hx => ih _ (List.mem_append_left _ hx)

lemma fallbackFill_covers (tIndices : List ℕ) (T target : ℕ) (hT : T ≤ 1) :
    ∀ (order : List ℕ) (sel : List ℕ), sel.length ≤ target →
      (fallbackFill tIndices order T target sel).length = target ∨
      ∀ i ∈ order, tIndices.getD i 0 ∈ fallbackFill tIndices order T target sel := by
  intro order
  induction order with
  | nil =>
    intro sel _
    right
    intro i hi
    cases hi
  | cons i rest ih =>
    intro sel hlen
    rw [show fallbackFill tIndices (i :: rest) T target sel =
      fallbackFill tIndices rest T target
        (if target ≤ sel.length then sel
         else if sel.any (fun e => Nat.dist (tIndices.getD i 0) e < T) ∨ tIndices.getD i 0 ∈ sel
           then sel
         else sel ++ [tIndices.getD i 0]) from rfl]
    split_ifs with h1 h2
    · left
      rw [fallbackFill_saturated tIndices T target rest sel h1]
      omega
    · have hmem : tIndices.getD i 0 ∈ sel := by
        rcases h2 with hany | hmem
        · rw [List.any_eq_true] at hany
          obtain ⟨e, he, hde⟩ := hany
          simp only [decide_eq_true_eq] at hde
          have hz : Nat.dist (tIndices.getD i 0) e = 0 := by omega
          rw [Nat.eq_of_dist_eq_zero hz]
          exact he
        · exact hmem
      rcases ih sel hlen with hl | hr
      · exact Or.inl hl
      · right
        intro j hj
        rcases List.mem_cons.mp hj with rfl | hjr
        · exact fallbackFill_sel_subset tIndices T target rest sel hmem
        · exact hr j hjr
    · have hlen2 : (sel ++ [tIndices.getD i 0]).length ≤ target := by
        rw [List.length_append, List.length_singleton]; omega
      rcases ih _ hlen2 with hl | hr
      · exact Or.inl hl
      · right
        intro j hj
        rcases List.mem_cons.mp hj with rfl | hjr
        · exact fallbackFill_sel_subset tIndices T target rest _
            (List.mem_append_right _ (List.mem_singleton_self _))
        · exact hr j hjr

lemma mem_insertByKeyDesc (key : ℕ → ℚ) (x : ℕ) :
    ∀ (l : List ℕ) (y : ℕ), y ∈ insertByKeyDesc key x l ↔ y = x ∨ y ∈ l := by
  intro l
  induction l with
  | nil => intro y; simp [insertByKeyDesc]
  | cons a t ih =>
    intro y
    simp only [insertByKeyDesc]
    split_ifs with h
    · rw [List.mem_cons, ih]
      constructor
      · rintro (rfl | h2 | h3) <;> simp [*]
      · rintro (rfl | h2)
        · simp
        · rcases List.mem_cons.mp h2 with rfl | h3 <;> simp [*]
    · simp [List.mem_cons]

lemma mem_sortByKeyDesc (key : ℕ → ℚ) :
    ∀ (l : List ℕ) (y : ℕ), y ∈ sortByKeyDesc key l ↔ y ∈ l := by
  intro l
  induction l with
  | nil => intro y; simp [sortByKeyDesc]
  | cons a t ih =>
    intro y
    unfold sortByKeyDesc at ih ⊢
    rw [List.foldr_cons, mem_insertByKeyDesc, ih, List.mem_cons]

lemma select_then_fallback_length (oracle : ℕ → ℕ) (eligible : List ℕ) (key : ℕ → ℚ)
    (T target : ℕ) (hT : T ≤ 1) (hnd : eligible.Nodup) (htar : target ≤ eligible.length) :
    (if (selectLoop oracle eligible T target 0 (2 * eligible.length) []).length < target then
       fallbackFill eligible (sortByKeyDesc key (List.range eligible.length)) T target
         (selectLoop oracle eligible T target 0 (2 * eligible.length) [])
     else selectLoop oracle eligible T target 0 (2 * eligible.length) []).length = target := by
  have hsel_le : (selectLoop oracle eligible T target 0 (2 * eligible.length) []).length ≤ target :=
    selectLoop_length_le oracle eligible T target _ 0 [] (Nat.zero_le _)
  split_ifs with hlt
  · rcases fallbackFill_covers eligible T target hT
      (sortByKeyDesc key (List.range eligible.length))
      (selectLoop oracle eligible T target 0 (2 * eligible.length) []) (le_of_lt hlt) with h | h
    · exact h
    · have hsub : eligible ⊆ fallbackFill eligible
          (sortByKeyDesc key (List.range eligible.length)) T target
          (selectLoop oracle eligible T target 0 (2 * eligible.length) []) := by
        intro x hx
        obtain ⟨i, hi, rfl⟩ := List.mem_iff_getElem.mp hx
        have hio : i ∈ sortByKeyDesc key (List.range eligible.length) :=
          (mem_sortByKeyDesc key _ i).mpr (List.mem_range.mpr hi)
        have hmem := h i hio
        rwa [List.getD_eq_getElem _ 0 hi] at hmem
      have hge : eligible.length ≤ (fallbackFill eligible
          (sortByKeyDesc key (List.range eligible.length)) T target
          (selectLoop oracle eligible T target 0 (2 * eligible.length) [])).length :=
        (hnd.subperm hsub).length_le
      have hle := fallbackFill_length_le eligible T target
        (sortByKeyDesc key (List.range eligible.length))
        (selectLoop oracle eligible T target 0 (2 * eligible.length) []) (le_of_lt hlt)
      omega
  · omega

lemma weekSelectedStarts_length_of (oracle : ℕ → ℕ) (grid : List ℕ) (T : ℕ)
    (weekday_probs weekend_probs : List ℚ) (apw endT wk : ℕ) (hT : T ≤ 1)
    (hne : ¬ ((((List.range grid.length).filter (fun i => weekKeyOf (grid.getD i 0) = wk)).filter
      (fun i => i + T ≤ grid.length)).length = 0))
    (htar : weekTargetActivations apw wk endT ≤
      (((List.range grid.length).filter (fun i => weekKeyOf (grid.getD i 0) = wk)).filter
        (fun i => i + T ≤ grid.length)).length) :
    (weekSelectedStarts oracle grid T weekday_probs weekend_probs apw endT wk).length =
      weekTargetActivations apw wk endT := by
  have hnd : (((List.range grid.length).filter (fun i => weekKeyOf (grid.getD i 0) = wk)).filter
      (fun i => i + T ≤ grid.length)).Nodup :=
    (((List.nodup_range _).filter _).filter _)
  simp only [weekSelectedStarts]
  rw [if_neg hne]
  exact select_then_fallback_length oracle _ _ T _ hT hnd htar

/-- C1 counterexample: over a window running from a week's Monday into its
Friday noon, `days_in_week = 5`; with `activations_per_week = 5` the source
computes `int(5 * 5/7) = 3` activations as the target, while rounding as the
claim states would give `round(25/7) = 4`. -/
theorem week_target_round_cex :
    weekDaysInWeek 0 388800 = 5 ∧
    weekTargetActivations 5 0 388800 = 3 ∧
    round ((5 * 5 : ℚ) / 7) = 4 ∧
    (3 : ℤ) ≠ 4 := by
  refine ⟨by decide, by decide, ?_, by decide⟩
  rw [round_eq]
  norm_num [Int.floor_eq_iff]

set_option maxRecDepth 16000 in
/-- C1 as amended: the per-week target is the truncation (floor), not the
rounding, of `activations_per_week * days_in_week / 7`, where `days_in_week`
is `(min(week_start + 7 days, end).date() - week_start).days + 1`; over a
window that is exactly one full week the target equals
`activations_per_week`, and with hour probabilities concentrated on the
scenario's windows and a one-sample activation the placer accepts exactly
`activations_per_week = 7` start positions for every draw sequence. -/
theorem week_target_truncation_and_quota :
    (∀ apw wk endT : ℕ, ((weekTargetActivations apw wk endT : ℤ) : ℚ) =
      ⌊((apw * weekDaysInWeek wk endT : ℕ) : ℚ) / 7⌋) ∧
    (∀ apw wk s : ℕ, s < 86400 →
      weekTargetActivations apw wk (wk * 86400 + 6 * 86400 + s) = apw) ∧
    (∀ oracle : ℕ → ℕ → ℕ,
      (probabilisticAllStarts oracle 1 0 601200 3600
        ⟨7, [((18, 21), 1)], [((10, 14), 1)]⟩).length = 7) := by
  refine ⟨?_, ?_, ?_⟩
  · intro apw wk endT
    have hfloor : ⌊((apw * weekDaysInWeek wk endT : ℕ) : ℚ) / 7⌋ =
        ((apw * weekDaysInWeek wk endT / 7 : ℕ) : ℤ) := by
      rw [Int.floor_eq_iff]
      constructor
      · rw [le_div_iff (by norm_num : (0:ℚ) < 7)]
        have h1 : apw * weekDaysInWeek wk endT / 7 * 7 ≤ apw * weekDaysInWeek wk endT :=
          Nat.div_mul_le_self _ _
        exact_mod_cast h1
      · rw [div_lt_iff (by norm_num : (0:ℚ) < 7)]
        have h2 : apw * weekDaysInWeek wk endT < (apw * weekDaysInWeek wk endT / 7 + 1) * 7 := by
          omega
        push_cast
        exact_mod_cast h2
    rw [hfloor]
    norm_num [weekTargetActivations]
  · intro apw wk s hs
    have hd : weekDaysInWeek wk (wk * 86400 + 6 * 86400 + s) = 7 := by
      unfold weekDaysInWeek
      have hmin : min (wk * 86400 + 7 * 86400) (wk * 86400 + 6 * 86400 + s) =
          wk * 86400 + 6 * 86400 + s := by omega
      rw [hmin]
      omega
    rw [weekTargetActivations, hd]
    omega
  · intro oracle
    have hkeys : ((gridTimes 0 601200 3600).map weekKeyOf).eraseDups = [0] := by decide
    have htar7 : weekTargetActivations 7 0 601200 = 7 := by decide
    have hne : ¬ ((((List.range (gridTimes 0 601200 3600).length).filter
        (fun i => weekKeyOf ((gridTimes 0 601200 3600).getD i 0) = 0)).filter
        (fun i => i + 1 ≤ (gridTimes 0 601200 3600).length)).length = 0) := by decide
    have htar : weekTargetActivations 7 0 601200 ≤
        (((List.range (gridTimes 0 601200 3600).length).filter
          (fun i => weekKeyOf ((gridTimes 0 601200 3600).getD i 0) = 0)).filter
          (fun i => i + 1 ≤ (gridTimes 0 601200 3600).length)).length := by decide
    simp only [probabilisticAllStarts]
    rw [hkeys]
    simp only [List.foldl_cons, List.foldl_nil, List.nil_append]
    rw [weekSelectedStarts_length_of (oracle 0) (gridTimes 0 601200 3600) 1 _ _ 7 601200 0
      (le_refl 1) hne htar, htar7]

/-- Witness for the amended C1 at concrete inputs. -/
theorem week_target_truncation_and_quota_witness :
    ((weekTargetActivations 5 0 388800 : ℤ) : ℚ) =
      ⌊((5 * weekDaysInWeek 0 388800 : ℕ) : ℚ) / 7⌋ ∧
    weekTargetActivations 7 3 (3 * 86400 + 6 * 86400 + 82800) = 7 ∧
    (probabilisticAllStarts (fun _ _ => 0) 1 0 601200 3600
      ⟨7, [((18, 21), 1)], [((10, 14), 1)]⟩).length = 7 :=
  ⟨week_target_truncation_and_quota.1 5 0 388800,
   week_target_truncation_and_quota.2.1 7 3 82800 (by norm_num),
   week_target_truncation_and_quota.2.2 (fun _ _ => 0)⟩
